import Mathlib

/-!
Shallow embedding of the A* branch-and-bound path search implemented in
`src/tsp/c_extension/astar.c` (with its header `astar.h`), together with
theorems settling the specification claims about it.

Modelling conventions:
* C `double` costs are modelled as exact rationals `ℚ`; the sentinel
  `DBL_MAX` is modelled by the constant `DBLMAX` (the exact value of the
  IEEE-754 double maximum, `2 ^ 1024 - 2 ^ 971`).  `solve_astar` maps an
  input of `+inf` to `DBL_MAX` before the search (astar.c line 200), so the
  model's inputs use `DBLMAX` directly for "no edge".
* The priority queue's backing array of `Node*` is modelled as a `List Node`;
  capacity growth is semantically invisible and is dropped.
* Out-of-bounds reads (undefined behaviour in C) are given the default value
  `DBLMAX` for matrix entries and `dN` for heap slots; well-formed runs never
  exercise these defaults.
-/

attribute [local semireducible] Rat.add Rat.sub Rat.mul

namespace Astar

/-- Model of the IEEE-754 `DBL_MAX` sentinel used by `astar.c` for "no edge"
and "no solution yet". -/
def DBLMAX : ℚ :=
  179769313486231570814527423731704356798070567525844996598917476803157260780028538760589558632766878171540458953514382464234321326889464182768467546703537516986049910576551282076245490090389328944075868508455133942304583236903222948165808559332123348274797826204144723168738177180919299881250404026184124858368

/-- The `Node` record from `astar.h`: a partial path with its costs. -/
structure Node where
  path : List ℕ
  g_cost : ℚ
  h_cost : ℚ
  f_cost : ℚ
deriving DecidableEq, Repr

/-- Default node for out-of-bounds heap reads (never exercised in-bounds). -/
def dN : Node := ⟨[], 0, 0, 0⟩

/-- `create_node` (astar.c lines 92-101): copies the path and sets
`f = g + h` from the arguments passed at creation. -/
def create_node (path : List ℕ) (g_cost h_cost : ℚ) : Node :=
  ⟨path, g_cost, h_cost, g_cost + h_cost⟩

/-- The heap key at position `i` of the backing array: `nodes[i]->f_cost`. -/
def keyAt (l : List Node) (i : ℕ) : ℚ := (l.getD i dN).f_cost

/-- `swap_nodes` applied to positions `i` and `j` of the backing array. -/
def swapL (l : List Node) (i j : ℕ) : List Node :=
  match l[i]?, l[j]? with
  | some a, some b => (l.set i b).set j a
  | _, _ => l

theorem swapL_length (l : List Node) (i j : ℕ) :
    (swapL l i j).length = l.length := by
  unfold swapL
  split <;> simp

/-- The loop of `sift_up` (astar.c lines 41-49) with an explicit iteration
budget: bubble position `i` up while its key is smaller than its parent's.
The index strictly decreases each iteration, so any budget of at least `i`
iterations reproduces the C loop exactly (`sift_upF_congr`). -/
def sift_upF : ℕ → List Node → ℕ → List Node
  | 0, l, _ => l
  | fuel + 1, l, i =>
    if 0 < i then
      if keyAt l i < keyAt l ((i - 1) / 2) then
        sift_upF fuel (swapL l i ((i - 1) / 2)) ((i - 1) / 2)
      else l
    else l

/-- `sift_up` (astar.c lines 40-50). -/
def sift_up (l : List Node) (i : ℕ) : List Node := sift_upF i l i

theorem sift_upF_zero_idx (fuel : ℕ) (l : List Node) :
    sift_upF fuel l 0 = l := by
  cases fuel <;> simp [sift_upF]

theorem sift_upF_congr : ∀ (fuel fuel' : ℕ) (l : List Node) (i : ℕ),
    i ≤ fuel → i ≤ fuel' → sift_upF fuel l i = sift_upF fuel' l i := by
  intro fuel
  induction fuel with
  | zero =>
    intro fuel' l i hf _
    have hi : i = 0 := Nat.le_zero.mp hf
    subst hi
    rw [sift_upF_zero_idx, sift_upF_zero_idx]
  | succ f ih =>
    intro fuel' l i hf hf'
    cases Nat.eq_zero_or_pos i with
    | inl h0 =>
      subst h0
      rw [sift_upF_zero_idx, sift_upF_zero_idx]
    | inr hpos =>
      obtain ⟨f', rfl⟩ : ∃ f'', fuel' = f'' + 1 :=
        ⟨fuel' - 1, by omega⟩
      show sift_upF (f + 1) l i = sift_upF (f' + 1) l i
      simp only [sift_upF, if_pos hpos]
      split
      · exact ih f' _ _ (by omega) (by omega)
      · rfl

/-- The recursion equation of `sift_up`, exactly the C loop body. -/
theorem sift_up_eq (l : List Node) (i : ℕ) :
    sift_up l i =
      if 0 < i then
        if keyAt l i < keyAt l ((i - 1) / 2) then
          sift_up (swapL l i ((i - 1) / 2)) ((i - 1) / 2)
        else l
      else l := by
  cases Nat.eq_zero_or_pos i with
  | inl h0 => subst h0; simp [sift_up, sift_upF]
  | inr hpos =>
    obtain ⟨j, rfl⟩ : ∃ j, i = j + 1 := ⟨i - 1, by omega⟩
    show sift_upF (j + 1) l (j + 1) = _
    simp only [sift_upF, if_pos hpos]
    split
    · exact sift_upF_congr j _ _ _ (by omega) le_rfl
    · rfl

/-- The index `smallest` computed by one iteration of `sift_down`
(astar.c lines 54-61): the smaller-keyed of `i` and its in-bounds children,
the left child checked first. -/
def smallestIdx (l : List Node) (i : ℕ) : ℕ :=
  if 2 * i + 2 < l.length ∧
      keyAt l (2 * i + 2) <
        keyAt l (if 2 * i + 1 < l.length ∧ keyAt l (2 * i + 1) < keyAt l i
          then 2 * i + 1 else i) then
    2 * i + 2
  else if 2 * i + 1 < l.length ∧ keyAt l (2 * i + 1) < keyAt l i then
    2 * i + 1
  else i

theorem smallestIdx_bounds (l : List Node) (i : ℕ)
    (h : smallestIdx l i ≠ i) :
    i < smallestIdx l i ∧ smallestIdx l i < l.length := by
  unfold smallestIdx at h ⊢
  split_ifs at h ⊢ with h1 h2 <;> omega

theorem smallestIdx_of_len_le (l : List Node) (i : ℕ) (h : l.length ≤ i) :
    smallestIdx l i = i := by
  unfold smallestIdx
  split_ifs with h1 h2 <;> omega

/-- The loop of `sift_down` (astar.c lines 53-67) with an explicit iteration
budget: push position `i` down toward the smaller of its children while one
of them has a smaller key.  The index strictly increases and stays below the
length each iteration, so any budget of at least `l.length - i` iterations
reproduces the C loop exactly (`sift_downF_congr`). -/
def sift_downF : ℕ → List Node → ℕ → List Node
  | 0, l, _ => l
  | fuel + 1, l, i =>
    if smallestIdx l i = i then l
    else sift_downF fuel (swapL l i (smallestIdx l i)) (smallestIdx l i)

/-- `sift_down` (astar.c lines 52-68). -/
def sift_down (l : List Node) (i : ℕ) : List Node := sift_downF l.length l i

theorem sift_downF_stop (fuel : ℕ) (l : List Node) (i : ℕ)
    (h : l.length ≤ i) : sift_downF fuel l i = l := by
  cases fuel with
  | zero => rfl
  | succ f => simp [sift_downF, smallestIdx_of_len_le l i h]

theorem sift_downF_congr : ∀ (fuel fuel' : ℕ) (l : List Node) (i : ℕ),
    l.length - i ≤ fuel → l.length - i ≤ fuel' →
    sift_downF fuel l i = sift_downF fuel' l i := by
  intro fuel
  induction fuel with
  | zero =>
    intro fuel' l i hf _
    rw [sift_downF_stop 0 l i (by omega), sift_downF_stop fuel' l i (by omega)]
  | succ f ih =>
    intro fuel' l i hf hf'
    by_cases hstop : l.length ≤ i
    · rw [sift_downF_stop _ l i hstop, sift_downF_stop _ l i hstop]
    · obtain ⟨f', rfl⟩ : ∃ f'', fuel' = f'' + 1 := ⟨fuel' - 1, by omega⟩
      show sift_downF (f + 1) l i = sift_downF (f' + 1) l i
      simp only [sift_downF]
      split
      · rfl
      · rename_i hne
        have hb := smallestIdx_bounds l i hne
        exact ih f' _ _ (by rw [swapL_length]; omega) (by rw [swapL_length]; omega)

/-- The recursion equation of `sift_down`, exactly the C loop body. -/
theorem sift_down_eq (l : List Node) (i : ℕ) :
    sift_down l i =
      if smallestIdx l i = i then l
      else sift_down (swapL l i (smallestIdx l i)) (smallestIdx l i) := by
  by_cases hstop : l.length ≤ i
  · rw [smallestIdx_of_len_le l i hstop]
    simp [sift_down, sift_downF_stop _ l i hstop]
  · obtain ⟨L, hL⟩ : ∃ L, l.length = L + 1 := ⟨l.length - 1, by omega⟩
    show sift_downF l.length l i = _
    rw [hL]
    simp only [sift_downF]
    split
    · rfl
    · rename_i hne
      have hb := smallestIdx_bounds l i hne
      show _ = sift_downF (swapL l i (smallestIdx l i)).length _ _
      rw [swapL_length, hL]
      exact sift_downF_congr L (L + 1) _ _
        (by rw [swapL_length, hL]; omega) (by rw [swapL_length, hL]; omega)

/-- `create_priority_queue`: the queue starts empty (capacity is dropped). -/
def create_priority_queue : List Node := []

/-- `push_node` (astar.c lines 70-78): append then sift up from the new
slot.  (Capacity doubling at line 72 does not affect the contents.) -/
def push_node (q : List Node) (node : Node) : List Node :=
  sift_up (q ++ [node]) q.length

/-- `pop_node` (astar.c lines 80-90): return the root; move the last element
to the root and sift it down.  `none` models the `NULL` returned on an empty
queue. -/
def pop_node (q : List Node) : Option (Node × List Node) :=
  match q with
  | [] => none
  | r :: _ =>
    if 0 < q.length - 1 then
      some (r, sift_down ((q.set 0 (q.getD (q.length - 1) dN)).take (q.length - 1)) 0)
    else some (r, [])

/-- The binary min-heap invariant on the backing array: every non-root
element's key is at least its parent's key. -/
def heapInv (l : List Node) : Prop :=
  ∀ i, 0 < i → i < l.length → keyAt l ((i - 1) / 2) ≤ keyAt l i

/-- The `AStarState` record from `astar.h` (the `Graph` is inlined as its
cost-lookup function; `n_vertices` and `n_cities` coincide in `astar.c`). -/
structure AStarState where
  costs : ℕ → ℕ → ℚ
  n_cities : ℕ
  best_cost : ℚ
  best_path : List ℕ
  open_list : List Node
  start_idx : ℕ
  end_idx : ℕ

/-- The node's current vertex: `node->path[node->path_length - 1]`. -/
def currentVertex (node : Node) : ℕ := node.path.getD (node.path.length - 1) 0

/-- `is_goal` (astar.c lines 108-110). -/
def is_goal (node : Node) (state : AStarState) : Prop :=
  currentVertex node = state.end_idx

instance (node : Node) (state : AStarState) : Decidable (is_goal node state) :=
  inferInstanceAs (Decidable (_ = _))

/-- `calculate_heuristic` (astar.c lines 112-127): the direct edge cost to
the goal if it exists, else the minimum entry of the current vertex's row
(the fallback loop runs over every `i` in `[0, n_cities)`). -/
def calculate_heuristic (state : AStarState) (node : Node) : ℚ :=
  let current := currentVertex node
  let h := state.costs current state.end_idx
  if h = DBLMAX then
    (List.range state.n_cities).foldl
      (fun acc i => if state.costs current i < acc then state.costs current i else acc)
      DBLMAX
  else h

/-- The child node built for neighbour `next` during expansion
(astar.c lines 150-159): `create_node` is called with `h = 0`, and `h_cost`
is then overwritten with the heuristic; `f_cost` is not recomputed. -/
def mkChild (state : AStarState) (node : Node) (next : ℕ) : Node :=
  let new_g_cost := node.g_cost + state.costs (currentVertex node) next
  let new_node := create_node (node.path ++ [next]) new_g_cost 0
  { new_node with h_cost := calculate_heuristic state new_node }

/-- `expand_node` (astar.c lines 129-172): on a goal node, update the best
solution if strictly better and generate no children; otherwise create one
child per unvisited neighbour with a finite edge, pushing those whose
`f_cost` beats `best_cost` and discarding the rest. -/
def expand_node (state : AStarState) (node : Node) : AStarState :=
  if is_goal node state then
    if node.g_cost < state.best_cost then
      { state with best_cost := node.g_cost, best_path := node.path }
    else state
  else
    { state with
      open_list := (List.range state.n_cities).foldl
        (fun q next =>
          if next ∉ node.path ∧ state.costs (currentVertex node) next ≠ DBLMAX then
            let c := mkChild state node next
            if c.f_cost < state.best_cost then push_node q c else q
          else q)
        state.open_list }

/-- The cost-matrix lookup built by `solve_astar` (astar.c lines 192-202)
from the input matrix; out-of-bounds reads default to the sentinel. -/
def costFn (m : List (List ℚ)) : ℕ → ℕ → ℚ :=
  fun i j => (m.getD i []).getD j DBLMAX

/-- The state built by `solve_astar` (astar.c lines 183-202) before the
start node is pushed: best cost `DBL_MAX`, empty best path, empty open
list. -/
def initStateBase (m : List (List ℚ)) (n s e : ℕ) : AStarState :=
  { costs := costFn m, n_cities := n, best_cost := DBLMAX, best_path := [],
    open_list := create_priority_queue, start_idx := s, end_idx := e }

/-- The start node (astar.c lines 205-208): path `[start_idx]`, `g = 0`,
created with `h = 0` and its `h_cost` then overwritten with the heuristic
(`f_cost` is not recomputed). -/
def start_node (m : List (List ℚ)) (n s e : ℕ) : Node :=
  { create_node [s] 0 0 with
    h_cost := calculate_heuristic (initStateBase m n s e) (create_node [s] 0 0) }

/-- The initial state of the search (astar.c lines 183-210). -/
def initState (m : List (List ℚ)) (n s e : ℕ) : AStarState :=
  { initStateBase m n s e with
    open_list := push_node (initStateBase m n s e).open_list (start_node m n s e) }

/-- One iteration of the main loop (astar.c lines 214-221): pop the minimum
node and expand it. -/
def searchStep (state : AStarState) : AStarState :=
  match pop_node state.open_list with
  | none => state
  | some (cur, q) => expand_node { state with open_list := q } cur

/-- The main loop (astar.c lines 213-221), with the remaining iteration
budget as fuel: run while the open list is non-empty and fuel remains. -/
def searchLoop : ℕ → AStarState → AStarState
  | 0, state => state
  | fuel + 1, state =>
    if state.open_list = [] then state
    else searchLoop fuel (searchStep state)

/-- `MAX_ITERATIONS` as redefined in astar.c line 16 (the later definition
overrides the one in astar.h). -/
def MAX_ITERATIONS : ℕ := 150000

/-- The result-extraction scan (astar.c lines 226-232): the first index
`i < n` at which `best_path[i]` equals the end vertex yields path length
`i + 1`; with no hit the length stays `0`.  Entries beyond the stored path
model uninitialized memory (default `n`, never equal to an end vertex
`e < n`); a well-formed search never reaches them. -/
def scanLen (p : List ℕ) (n e : ℕ) : ℕ :=
  match (List.range n).find? (fun i => p.getD i n = e) with
  | some i => i + 1
  | none => 0

/-- Result construction (astar.c lines 224-242): if a solution was found,
the scanned prefix of `best_path` and its cost; otherwise the empty path
with cost `DBL_MAX`. -/
def extract_result (state : AStarState) (n e : ℕ) : List ℕ × ℚ :=
  if state.best_cost < DBLMAX then
    (state.best_path.take (scanLen state.best_path n e), state.best_cost)
  else ([], state.best_cost)

/-- `solve_astar` (astar.c lines 174-256), after the Python argument
parsing: build the initial state, run the main loop, extract the result. -/
def solve_astar (m : List (List ℚ)) (n s e : ℕ) : List ℕ × ℚ :=
  let final := searchLoop MAX_ITERATIONS (initState m n s e)
  extract_result final n e

/-- The concrete 4-vertex cost matrix of the spec's testable property 6,
with `∞` entered as the sentinel. -/
def m4 : List (List ℚ) :=
  [[0, 1, 4, DBLMAX], [1, 0, 1, 5], [4, 1, 0, 1], [DBLMAX, 5, 1, 0]]

/-! ### Basic facts about the heap array operations -/

theorem keyAt_swapL (l : List Node) (i j k : ℕ)
    (hi : i < l.length) (hj : j < l.length) :
    keyAt (swapL l i j) k =
      if k = j then keyAt l i else if k = i then keyAt l j else keyAt l k := by
  have hi' : l[i]? = some l[i] := List.getElem?_eq_getElem hi
  have hj' : l[j]? = some l[j] := List.getElem?_eq_getElem hj
  unfold swapL
  rw [hi', hj']
  simp only [keyAt, List.getD_eq_getElem?_getD]
  by_cases hkj : k = j
  · subst hkj
    rw [List.getElem?_set_self (by simpa using hj), List.getElem?_eq_getElem hi]
    simp
  · rw [List.getElem?_set_ne (fun h => hkj h.symm)]
    by_cases hki : k = i
    · subst hki
      rw [List.getElem?_set_self (by simpa using hi), List.getElem?_eq_getElem hj]
      simp [hkj]
    · rw [List.getElem?_set_ne (fun h => hki h.symm)]
      simp [hkj, hki]

theorem mem_swapL {y : Node} {l : List Node} {i j : ℕ}
    (h : y ∈ swapL l i j) : y ∈ l := by
  unfold swapL at h
  split at h
  · rename_i a b ha hb
    rcases List.mem_or_eq_of_mem_set h with h' | rfl
    · rcases List.mem_or_eq_of_mem_set h' with h'' | rfl
      · exact h''
      · exact List.getElem?_mem hb
    · exact List.getElem?_mem ha
  · exact h

theorem mem_sift_upF {y : Node} : ∀ {fuel : ℕ} {l : List Node} {i : ℕ},
    y ∈ sift_upF fuel l i → y ∈ l := by
  intro fuel
  induction fuel with
  | zero => intro l i h; exact h
  | succ f ih =>
    intro l i h
    unfold sift_upF at h
    split at h
    · split at h
      · exact mem_swapL (ih h)
      · exact h
    · exact h

theorem mem_sift_downF {y : Node} : ∀ {fuel : ℕ} {l : List Node} {i : ℕ},
    y ∈ sift_downF fuel l i → y ∈ l := by
  intro fuel
  induction fuel with
  | zero => intro l i h; exact h
  | succ f ih =>
    intro l i h
    unfold sift_downF at h
    split at h
    · exact h
    · exact mem_swapL (ih h)

theorem mem_push_node {y x : Node} {q : List Node}
    (h : y ∈ push_node q x) : y ∈ q ∨ y = x := by
  have h' := mem_sift_upF h
  rcases List.mem_append.mp h' with h'' | h''
  · exact Or.inl h''
  · exact Or.inr (List.mem_singleton.mp h'')

theorem getD_mem_of_lt {l : List Node} {i : ℕ} (h : i < l.length) :
    l.getD i dN ∈ l := by
  rw [List.getD_eq_getElem?_getD, List.getElem?_eq_getElem h]
  exact List.getElem_mem h

theorem pop_node_mem {q : List Node} {r : Node} {q' : List Node}
    (h : pop_node q = some (r, q')) :
    r ∈ q ∧ ∀ y ∈ q', y ∈ q := by
  cases q with
  | nil => simp [pop_node] at h
  | cons a as =>
    simp only [pop_node] at h
    split at h
    · simp only [Option.some.injEq, Prod.mk.injEq] at h
      obtain ⟨rfl, rfl⟩ := h
      refine ⟨List.mem_cons_self a as, fun y hy => ?_⟩
      have h1 := mem_sift_downF hy
      have h2 := List.mem_of_mem_take h1
      rcases List.mem_or_eq_of_mem_set h2 with h3 | rfl
      · exact h3
      · exact getD_mem_of_lt (by simp)
    · simp only [Option.some.injEq, Prod.mk.injEq] at h
      obtain ⟨rfl, rfl⟩ := h
      exact ⟨List.mem_cons_self a as, by simp⟩

/-! ### The binary-heap invariant is preserved by push and pop -/

/-- Precondition under which `sift_up` from position `j` restores the heap
invariant: every parent-child pair away from `j` is ordered, and the
children of `j` already dominate `j`'s parent. -/
def siftUpPre (l : List Node) (j : ℕ) : Prop :=
  j < l.length ∧
  (∀ i, 0 < i → i < l.length → i ≠ j → keyAt l ((i - 1) / 2) ≤ keyAt l i) ∧
  (∀ i, i < l.length → (i - 1) / 2 = j → 0 < j → keyAt l ((j - 1) / 2) ≤ keyAt l i)

theorem heapInv_sift_upF : ∀ (fuel : ℕ) (l : List Node) (j : ℕ),
    j ≤ fuel → siftUpPre l j → heapInv (sift_upF fuel l j) := by
  intro fuel
  induction fuel with
  | zero =>
    intro l j hf pre
    have hj : j = 0 := by omega
    subst hj
    intro i hi hilen
    exact pre.2.1 i hi hilen (by omega)
  | succ f ih =>
    intro l j hf pre
    obtain ⟨hjlen, h2, h3⟩ := pre
    unfold sift_upF
    by_cases hj : 0 < j
    · rw [if_pos hj]
      by_cases hlt : keyAt l j < keyAt l ((j - 1) / 2)
      · rw [if_pos hlt]
        have hplt : (j - 1) / 2 < j := by omega
        have hplen : (j - 1) / 2 < l.length := by omega
        have hjp : ¬(j = (j - 1) / 2) := by omega
        have hpj : (j - 1) / 2 ≠ j := by omega
        apply ih
        · omega
        refine ⟨by rw [swapL_length]; omega, ?_, ?_⟩
        · intro i hi hilen hip
          rw [swapL_length] at hilen
          rw [keyAt_swapL l j ((j - 1) / 2) ((i - 1) / 2) hjlen hplen,
            keyAt_swapL l j ((j - 1) / 2) i hjlen hplen]
          by_cases hij : i = j
          · subst hij
            rw [if_pos rfl, if_neg hjp, if_pos rfl]
            exact le_of_lt hlt
          · rw [if_neg hip, if_neg hij]
            by_cases hqp : (i - 1) / 2 = (j - 1) / 2
            · rw [if_pos hqp]
              have hh := h2 i hi hilen hij
              rw [hqp] at hh
              exact le_trans (le_of_lt hlt) hh
            · rw [if_neg hqp]
              by_cases hqj : (i - 1) / 2 = j
              · rw [if_pos hqj]
                exact h3 i hilen hqj hj
              · rw [if_neg hqj]
                exact h2 i hi hilen hij
        · intro i hilen hpar hp
          rw [swapL_length] at hilen
          have hr1 : ¬(((j - 1) / 2 - 1) / 2 = (j - 1) / 2) := by omega
          have hr2 : ¬(((j - 1) / 2 - 1) / 2 = j) := by omega
          rw [keyAt_swapL l j ((j - 1) / 2) (((j - 1) / 2 - 1) / 2) hjlen hplen,
            keyAt_swapL l j ((j - 1) / 2) i hjlen hplen, if_neg hr1, if_neg hr2]
          by_cases hij : i = j
          · have e2 : ¬(i = (j - 1) / 2) := by omega
            rw [if_neg e2, if_pos hij]
            exact h2 ((j - 1) / 2) hp hplen hpj
          · have hnip : ¬(i = (j - 1) / 2) := by omega
            rw [if_neg hnip, if_neg hij]
            have hi : 0 < i := by omega
            have ha := h2 i hi hilen hij
            rw [hpar] at ha
            exact le_trans (h2 ((j - 1) / 2) hp hplen hpj) ha
      · rw [if_neg hlt]
        intro i hi hilen
        by_cases hij : i = j
        · subst hij
          exact le_of_not_lt hlt
        · exact h2 i hi hilen hij
    · rw [if_neg hj]
      intro i hi hilen
      exact h2 i hi hilen (by omega)

theorem smallestIdx_eq_self (l : List Node) (j : ℕ) (h : smallestIdx l j = j) :
    (2 * j + 1 < l.length → keyAt l j ≤ keyAt l (2 * j + 1)) ∧
    (2 * j + 2 < l.length → keyAt l j ≤ keyAt l (2 * j + 2)) := by
  unfold smallestIdx at h
  by_cases hc1 : 2 * j + 1 < l.length ∧ keyAt l (2 * j + 1) < keyAt l j
  · rw [if_pos hc1] at h
    by_cases hc2 : 2 * j + 2 < l.length ∧ keyAt l (2 * j + 2) < keyAt l (2 * j + 1)
    · rw [if_pos hc2] at h
      omega
    · rw [if_neg hc2] at h
      omega
  · rw [if_neg hc1] at h
    by_cases hc2 : 2 * j + 2 < l.length ∧ keyAt l (2 * j + 2) < keyAt l j
    · rw [if_pos hc2] at h
      omega
    · exact ⟨fun hlen => le_of_not_lt (fun hk => hc1 ⟨hlen, hk⟩),
        fun hlen => le_of_not_lt (fun hk => hc2 ⟨hlen, hk⟩)⟩

theorem smallestIdx_spec (l : List Node) (j : ℕ) (h : smallestIdx l j ≠ j) :
    (smallestIdx l j = 2 * j + 1 ∨ smallestIdx l j = 2 * j + 2) ∧
    smallestIdx l j < l.length ∧
    keyAt l (smallestIdx l j) < keyAt l j ∧
    (2 * j + 1 < l.length → keyAt l (smallestIdx l j) ≤ keyAt l (2 * j + 1)) ∧
    (2 * j + 2 < l.length → keyAt l (smallestIdx l j) ≤ keyAt l (2 * j + 2)) := by
  have hmain : ∀ s, smallestIdx l j = s → s ≠ j →
      (s = 2 * j + 1 ∨ s = 2 * j + 2) ∧ s < l.length ∧
      keyAt l s < keyAt l j ∧
      (2 * j + 1 < l.length → keyAt l s ≤ keyAt l (2 * j + 1)) ∧
      (2 * j + 2 < l.length → keyAt l s ≤ keyAt l (2 * j + 2)) := by
    intro s hs hsj
    unfold smallestIdx at hs
    by_cases hc1 : 2 * j + 1 < l.length ∧ keyAt l (2 * j + 1) < keyAt l j
    · rw [if_pos hc1] at hs
      by_cases hc2 : 2 * j + 2 < l.length ∧ keyAt l (2 * j + 2) < keyAt l (2 * j + 1)
      · rw [if_pos hc2] at hs
        subst hs
        exact ⟨Or.inr rfl, by omega, lt_trans hc2.2 hc1.2,
          fun _ => le_of_lt hc2.2, fun _ => le_rfl⟩
      · rw [if_neg hc2] at hs
        subst hs
        exact ⟨Or.inl rfl, hc1.1, hc1.2, fun _ => le_rfl,
          fun hlen => le_of_not_lt (fun hk => hc2 ⟨hlen, hk⟩)⟩
    · rw [if_neg hc1] at hs
      by_cases hc2 : 2 * j + 2 < l.length ∧ keyAt l (2 * j + 2) < keyAt l j
      · rw [if_pos hc2] at hs
        subst hs
        exact ⟨Or.inr rfl, hc2.1, hc2.2,
          fun hlen =>
            le_trans (le_of_lt hc2.2) (le_of_not_lt (fun hk => hc1 ⟨hlen, hk⟩)),
          fun _ => le_rfl⟩
      · rw [if_neg hc2] at hs
        exact absurd hs.symm hsj
  exact hmain _ rfl h

/-- Precondition under which `sift_down` from position `j` restores the heap
invariant: every parent-child pair whose child is not a child of `j` is
ordered, and the children of `j` already dominate `j`'s parent. -/
def siftDownPre (l : List Node) (j : ℕ) : Prop :=
  (∀ k, 0 < k → k < l.length → (k - 1) / 2 ≠ j → keyAt l ((k - 1) / 2) ≤ keyAt l k) ∧
  (∀ k, k < l.length → (k - 1) / 2 = j → 0 < j → keyAt l ((j - 1) / 2) ≤ keyAt l k)

theorem heapInv_sift_downF : ∀ (fuel : ℕ) (l : List Node) (j : ℕ),
    l.length - j ≤ fuel → siftDownPre l j → heapInv (sift_downF fuel l j) := by
  intro fuel
  induction fuel with
  | zero =>
    intro l j hf pre
    show heapInv l
    intro i hi hilen
    exact pre.1 i hi hilen (by omega)
  | succ f ih =>
    intro l j hf pre
    obtain ⟨hA, hB⟩ := pre
    unfold sift_downF
    split
    · rename_i hself
      have hfacts := smallestIdx_eq_self l j hself
      intro i hi hilen
      by_cases hq : (i - 1) / 2 = j
      · have hcases : i = 2 * j + 1 ∨ i = 2 * j + 2 := by omega
        rw [hq]
        rcases hcases with rfl | rfl
        · exact hfacts.1 hilen
        · exact hfacts.2 hilen
      · exact hA i hi hilen hq
    · rename_i hne
      have hb := smallestIdx_bounds l j hne
      obtain ⟨hor, hslen, hslt, hchild1, hchild2⟩ := smallestIdx_spec l j hne
      have hjlen : j < l.length := by omega
      have hpars : (smallestIdx l j - 1) / 2 = j := by omega
      have hjs : ¬(j = smallestIdx l j) := by omega
      apply ih
      · rw [swapL_length]; omega
      constructor
      · intro k hk hklen hkpar
        rw [swapL_length] at hklen
        rw [keyAt_swapL l j (smallestIdx l j) ((k - 1) / 2) hjlen hslen,
          keyAt_swapL l j (smallestIdx l j) k hjlen hslen]
        by_cases hks : k = smallestIdx l j
        · subst hks
          rw [hpars, if_neg hjs, if_pos rfl, if_pos rfl]
          exact le_of_lt hslt
        · by_cases hkj : k = j
          · have hc1 : ¬((k - 1) / 2 = smallestIdx l j) := by omega
            have hc2 : ¬((k - 1) / 2 = j) := by omega
            rw [if_neg hc1, if_neg hc2, if_neg hks, if_pos hkj, hkj]
            exact hB (smallestIdx l j) hslen hpars (by omega)
          · rw [if_neg hks, if_neg hkj]
            by_cases hpj : (k - 1) / 2 = j
            · rw [if_neg hkpar, if_pos hpj]
              have hcases : k = 2 * j + 1 ∨ k = 2 * j + 2 := by omega
              rcases hcases with rfl | rfl
              · exact hchild1 hklen
              · exact hchild2 hklen
            · rw [if_neg hkpar, if_neg hpj]
              exact hA k hk hklen hpj
      · intro k hklen hkpar hspos
        rw [swapL_length] at hklen
        rw [keyAt_swapL l j (smallestIdx l j) ((smallestIdx l j - 1) / 2) hjlen hslen,
          keyAt_swapL l j (smallestIdx l j) k hjlen hslen]
        have hks : ¬(k = smallestIdx l j) := by omega
        have hkj : ¬(k = j) := by omega
        rw [hpars, if_neg hjs, if_pos rfl, if_neg hks, if_neg hkj]
        have ha := hA k (by omega) hklen (by omega)
        rw [hkpar] at ha
        exact ha

theorem keyAt_append_lt (q : List Node) (x : Node) (k : ℕ) (h : k < q.length) :
    keyAt (q ++ [x]) k = keyAt q k := by
  simp [keyAt, List.getD_eq_getElem?_getD, List.getElem?_append_left h]

theorem heapInv_push_node {q : List Node} (x : Node) (h : heapInv q) :
    heapInv (push_node q x) := by
  unfold push_node sift_up
  apply heapInv_sift_upF _ _ _ le_rfl
  refine ⟨by simp, fun i hi hilen hij => ?_, fun i hilen hpar hj => ?_⟩
  · simp only [List.length_append, List.length_singleton] at hilen
    have hiq : i < q.length := by omega
    have hpq : (i - 1) / 2 < q.length := by omega
    rw [keyAt_append_lt q x i hiq, keyAt_append_lt q x _ hpq]
    exact h i hi hiq
  · exfalso
    simp only [List.length_append, List.length_singleton] at hilen
    omega

theorem keyAt_take_set (q : List Node) (y : Node) (s m : ℕ)
    (h0 : 0 < m) (hm : m < s) :
    keyAt ((q.set 0 y).take s) m = keyAt q m := by
  simp only [keyAt, List.getD_eq_getElem?_getD]
  rw [List.getElem?_take_of_lt hm, List.getElem?_set_ne (by omega)]

theorem heapInv_pop_node {q : List Node} {r : Node} {q' : List Node}
    (hq : heapInv q) (h : pop_node q = some (r, q')) : heapInv q' := by
  cases q with
  | nil => simp [pop_node] at h
  | cons a as =>
    simp only [pop_node] at h
    split at h
    · rename_i hlen
      simp only [Option.some.injEq, Prod.mk.injEq] at h
      obtain ⟨rfl, rfl⟩ := h
      unfold sift_down
      apply heapInv_sift_downF _ _ _ (by omega)
      constructor
      · intro k hk hklen hkpar
        have hl0 : (((a :: as).set 0 ((a :: as).getD ((a :: as).length - 1) dN)).take
            ((a :: as).length - 1)).length = (a :: as).length - 1 := by
          simp
        rw [hl0] at hklen
        rw [keyAt_take_set _ _ _ _ (by omega) (by omega),
          keyAt_take_set _ _ _ _ hk hklen]
        exact hq k hk (by omega)
      · intro k hklen hkpar hj
        exact absurd hj (lt_irrefl 0)
    · simp only [Option.some.injEq, Prod.mk.injEq] at h
      obtain ⟨rfl, rfl⟩ := h
      intro i hi hilen
      simp at hilen

/-- A queue operation of the spec's testable property 1: a push of a node or
a pop. -/
inductive QueueOp where
  | push (node : Node) : QueueOp
  | pop : QueueOp

/-- Apply one queue operation, popping via `pop_node` (a pop on an empty
queue returns `NULL` and leaves the queue empty). -/
def applyOp (q : List Node) : QueueOp → List Node
  | QueueOp.push x => push_node q x
  | QueueOp.pop =>
    match pop_node q with
    | none => q
    | some (_, q') => q'

/-- Apply a sequence of queue operations in order. -/
def applyOps (q : List Node) (ops : List QueueOp) : List Node :=
  ops.foldl applyOp q

theorem heapInv_applyOp (q : List Node) (op : QueueOp) (h : heapInv q) :
    heapInv (applyOp q op) := by
  cases op with
  | push x => exact heapInv_push_node x h
  | pop =>
    unfold applyOp
    cases hpop : pop_node q with
    | none => simp only [hpop]; exact h
    | some p =>
      obtain ⟨r, q'⟩ := p
      simp only [hpop]
      exact heapInv_pop_node h hpop

theorem heapInv_applyOps : ∀ (ops : List QueueOp) (q : List Node),
    heapInv q → heapInv (applyOps q ops) := by
  intro ops
  induction ops with
  | nil => intro q h; exact h
  | cons op rest ih =>
    intro q h
    exact ih _ (heapInv_applyOp q op h)

theorem heapInv_empty : heapInv create_priority_queue := by
  intro i hi hilen
  simp [create_priority_queue] at hilen

/-! ### Behaviour of node expansion -/

theorem mkChild_path (st : AStarState) (nd : Node) (next : ℕ) :
    (mkChild st nd next).path = nd.path ++ [next] := rfl

theorem mkChild_g_cost (st : AStarState) (nd : Node) (next : ℕ) :
    (mkChild st nd next).g_cost = nd.g_cost + st.costs (currentVertex nd) next := rfl

theorem mkChild_f_cost (st : AStarState) (nd : Node) (next : ℕ) :
    (mkChild st nd next).f_cost = nd.g_cost + st.costs (currentVertex nd) next :=
  add_zero _

/-- The f-cost bug of astar.c lines 158-159: a child's `f_cost` is `g + 0`
from `create_node`, never updated after `h_cost` is overwritten. -/
theorem mkChild_f_eq_g (st : AStarState) (nd : Node) (next : ℕ) :
    (mkChild st nd next).f_cost = (mkChild st nd next).g_cost :=
  add_zero _

theorem currentVertex_concat (nd : Node) (p : List ℕ) (x : ℕ)
    (h : nd.path = p ++ [x]) : currentVertex nd = x := by
  unfold currentVertex
  rw [h]
  simp [List.getD_eq_getElem?_getD, List.getElem?_append_right (Nat.le_refl p.length)]

theorem currentVertex_mem (nd : Node) (h : nd.path ≠ []) :
    currentVertex nd ∈ nd.path := by
  unfold currentVertex
  have hlen : nd.path.length - 1 < nd.path.length := by
    cases hp : nd.path with
    | nil => exact absurd hp h
    | cons a as => simp
  rw [List.getD_eq_getElem?_getD, List.getElem?_eq_getElem hlen]
  exact List.getElem_mem hlen

theorem expand_node_fields (st : AStarState) (nd : Node) :
    (expand_node st nd).costs = st.costs ∧
    (expand_node st nd).n_cities = st.n_cities ∧
    (expand_node st nd).end_idx = st.end_idx ∧
    (expand_node st nd).start_idx = st.start_idx := by
  unfold expand_node
  split
  · split
    · exact ⟨rfl, rfl, rfl, rfl⟩
    · exact ⟨rfl, rfl, rfl, rfl⟩
  · exact ⟨rfl, rfl, rfl, rfl⟩

theorem expand_node_goal_open (st : AStarState) (nd : Node) (h : is_goal nd st) :
    (expand_node st nd).open_list = st.open_list := by
  unfold expand_node
  rw [if_pos h]
  split
  · rfl
  · rfl

theorem expand_node_goal_best (st : AStarState) (nd : Node) (h : is_goal nd st)
    (hlt : nd.g_cost < st.best_cost) :
    (expand_node st nd).best_cost = nd.g_cost ∧
    (expand_node st nd).best_path = nd.path := by
  unfold expand_node
  rw [if_pos h, if_pos hlt]
  exact ⟨rfl, rfl⟩

theorem expand_node_goal_nobest (st : AStarState) (nd : Node) (h : is_goal nd st)
    (hlt : ¬ nd.g_cost < st.best_cost) :
    (expand_node st nd).best_cost = st.best_cost ∧
    (expand_node st nd).best_path = st.best_path := by
  unfold expand_node
  rw [if_pos h, if_neg hlt]
  exact ⟨rfl, rfl⟩

theorem expand_node_nongoal_best (st : AStarState) (nd : Node)
    (h : ¬ is_goal nd st) :
    (expand_node st nd).best_cost = st.best_cost ∧
    (expand_node st nd).best_path = st.best_path := by
  unfold expand_node
  rw [if_neg h]
  exact ⟨rfl, rfl⟩

theorem expand_best_cases (st : AStarState) (nd : Node) :
    (expand_node st nd).best_cost = st.best_cost ∨
    (expand_node st nd).best_cost < st.best_cost := by
  unfold expand_node
  split
  · split
    · rename_i hlt
      exact Or.inr hlt
    · exact Or.inl rfl
  · exact Or.inl rfl

theorem expand_best_le (st : AStarState) (nd : Node) :
    (expand_node st nd).best_cost ≤ st.best_cost := by
  rcases expand_best_cases st nd with h | h
  · exact le_of_eq h
  · exact le_of_lt h

/-- The candidate children generated when expanding a non-goal node: one per
unvisited vertex with a finite-cost edge from the node's current vertex, in
vertex order (astar.c lines 148-159). -/
def candidates (st : AStarState) (nd : Node) : List Node :=
  ((List.range st.n_cities).filter
    (fun next => decide (next ∉ nd.path ∧ st.costs (currentVertex nd) next ≠ DBLMAX))).map
    (mkChild st nd)

theorem expand_open_list_eq (st : AStarState) (nd : Node) (h : ¬ is_goal nd st) :
    (expand_node st nd).open_list =
      ((candidates st nd).filter
        (fun c => decide (c.f_cost < st.best_cost))).foldl push_node st.open_list := by
  unfold expand_node candidates
  rw [if_neg h]
  show (List.range st.n_cities).foldl _ st.open_list = _
  generalize st.open_list = q
  generalize List.range st.n_cities = L
  induction L generalizing q with
  | nil => rfl
  | cons x L ih =>
    simp only [List.foldl_cons, List.filter_cons]
    by_cases hx : x ∉ nd.path ∧ st.costs (currentVertex nd) x ≠ DBLMAX
    · rw [if_pos hx, if_pos (decide_eq_true hx)]
      simp only [List.map_cons, List.filter_cons]
      by_cases hcb : (mkChild st nd x).f_cost < st.best_cost
      · rw [if_pos hcb, if_pos (decide_eq_true hcb), List.foldl_cons]
        exact ih (push_node q (mkChild st nd x))
      · rw [if_neg hcb, if_neg (by simpa using hcb)]
        exact ih q
    · rw [if_neg hx, if_neg (by simpa using hx)]
      exact ih q

theorem mem_candidates {st : AStarState} {nd : Node} {y : Node}
    (h : y ∈ candidates st nd) :
    ∃ next, next < st.n_cities ∧ next ∉ nd.path ∧
      st.costs (currentVertex nd) next ≠ DBLMAX ∧ y = mkChild st nd next := by
  unfold candidates at h
  rcases List.mem_map.mp h with ⟨next, hmem, rfl⟩
  rcases List.mem_filter.mp hmem with ⟨hrange, hcond⟩
  have hcond' := of_decide_eq_true hcond
  exact ⟨next, List.mem_range.mp hrange, hcond'.1, hcond'.2, rfl⟩

theorem mem_foldl_push {y : Node} :
    ∀ (cs : List Node) (q : List Node), y ∈ cs.foldl push_node q →
      y ∈ q ∨ y ∈ cs := by
  intro cs
  induction cs with
  | nil => intro q h; exact Or.inl h
  | cons c cs ih =>
    intro q h
    rw [List.foldl_cons] at h
    rcases ih (push_node q c) h with h' | h'
    · rcases mem_push_node h' with h'' | rfl
      · exact Or.inl h''
      · exact Or.inr (List.mem_cons_self _ _)
    · exact Or.inr (List.mem_cons_of_mem _ h')

/-- Membership in the open list after a non-goal expansion: an old element,
or a child created for an unvisited vertex with a finite edge whose `f_cost`
beat the bound. -/
theorem mem_expand_open {st : AStarState} {nd : Node} {y : Node}
    (h : ¬ is_goal nd st) (hy : y ∈ (expand_node st nd).open_list) :
    y ∈ st.open_list ∨
      ∃ next, next < st.n_cities ∧ next ∉ nd.path ∧
        st.costs (currentVertex nd) next ≠ DBLMAX ∧
        (mkChild st nd next).f_cost < st.best_cost ∧ y = mkChild st nd next := by
  rw [expand_open_list_eq st nd h] at hy
  rcases mem_foldl_push _ _ hy with h' | h'
  · exact Or.inl h'
  · rcases List.mem_filter.mp h' with ⟨hc, hf⟩
    rcases mem_candidates hc with ⟨next, h1, h2, h3, rfl⟩
    exact Or.inr ⟨next, h1, h2, h3, of_decide_eq_true hf, rfl⟩

/-! ### Behaviour of the main loop -/

theorem searchStep_fields (st : AStarState) :
    (searchStep st).costs = st.costs ∧
    (searchStep st).n_cities = st.n_cities ∧
    (searchStep st).end_idx = st.end_idx ∧
    (searchStep st).start_idx = st.start_idx := by
  unfold searchStep
  cases hpop : pop_node st.open_list with
  | none => exact ⟨rfl, rfl, rfl, rfl⟩
  | some p =>
    obtain ⟨cur, q⟩ := p
    exact expand_node_fields _ _

theorem searchStep_best_cases (st : AStarState) :
    (searchStep st).best_cost = st.best_cost ∨
    (searchStep st).best_cost < st.best_cost := by
  unfold searchStep
  cases hpop : pop_node st.open_list with
  | none => exact Or.inl rfl
  | some p =>
    obtain ⟨cur, q⟩ := p
    exact expand_best_cases _ _

theorem searchStep_best_le (st : AStarState) :
    (searchStep st).best_cost ≤ st.best_cost := by
  rcases searchStep_best_cases st with h | h
  · exact le_of_eq h
  · exact le_of_lt h

theorem searchLoop_best_le : ∀ (fuel : ℕ) (st : AStarState),
    (searchLoop fuel st).best_cost ≤ st.best_cost := by
  intro fuel
  induction fuel with
  | zero => intro st; exact le_rfl
  | succ f ih =>
    intro st
    unfold searchLoop
    split
    · exact le_rfl
    · exact le_trans (ih (searchStep st)) (searchStep_best_le st)

theorem searchLoop_inv (P : AStarState → Prop)
    (hstep : ∀ st, P st → P (searchStep st)) :
    ∀ (fuel : ℕ) (st : AStarState), P st → P (searchLoop fuel st) := by
  intro fuel
  induction fuel with
  | zero => intro st h; exact h
  | succ f ih =>
    intro st h
    unfold searchLoop
    split
    · exact h
    · exact ih _ (hstep st h)

theorem searchLoop_of_empty {st : AStarState} (h : st.open_list = [])
    (fuel : ℕ) : searchLoop fuel st = st := by
  cases fuel with
  | zero => rfl
  | succ f =>
    unfold searchLoop
    rw [if_pos h]

theorem initState_open_list (m : List (List ℚ)) (n s e : ℕ) :
    (initState m n s e).open_list = [start_node m n s e] := rfl

theorem start_node_path (m : List (List ℚ)) (n s e : ℕ) :
    (start_node m n s e).path = [s] := rfl

theorem start_node_g_cost (m : List (List ℚ)) (n s e : ℕ) :
    (start_node m n s e).g_cost = 0 := rfl

theorem pop_node_singleton (x : Node) : pop_node [x] = some (x, []) := rfl

/-! ### Facts about result extraction -/

theorem find?_range_eq_some (q : ℕ → Bool) :
    ∀ (n k : ℕ), k < n → q k = true → (∀ i, i < k → q i = false) →
    (List.range n).find? q = some k := by
  intro n
  induction n with
  | zero => intro k hk _ _; omega
  | succ n ih =>
    intro k hk hq hprev
    rw [List.range_succ, List.find?_append]
    by_cases hkn : k < n
    · rw [ih k hkn hq hprev]
      rfl
    · have hkeq : k = n := by omega
      subst hkeq
      have hnone : (List.range k).find? q = none := by
        rw [List.find?_eq_none]
        intro i hi
        rw [hprev i (List.mem_range.mp hi)]
        simp
      rw [hnone]
      show ((List.find? q [k])) = some k
      exact List.find?_cons_of_pos _ hq

theorem scanLen_eq_length (p : List ℕ) (n e : ℕ)
    (hne : p ≠ []) (hle : p.length ≤ n)
    (hlast : p.getD (p.length - 1) n = e)
    (hdrop : ∀ i, i < p.length - 1 → p.getD i n ≠ e) :
    scanLen p n e = p.length := by
  have hlen : 0 < p.length := List.length_pos.mpr hne
  unfold scanLen
  rw [find?_range_eq_some _ n (p.length - 1) (by omega) (decide_eq_true hlast)
    (fun i hi => decide_eq_false (hdrop i hi))]
  show p.length - 1 + 1 = p.length
  omega

theorem getD_eq_getD (p : List ℕ) (i : ℕ) (d d' : ℕ) (h : i < p.length) :
    p.getD i d = p.getD i d' := by
  rw [List.getD_eq_getElem?_getD, List.getD_eq_getElem?_getD,
    List.getElem?_eq_getElem h]
  rfl

theorem nodup_bounded_length_le (p : List ℕ) (n : ℕ) (hnd : p.Nodup)
    (hb : ∀ v ∈ p, v < n) : p.length ≤ n := by
  have h1 : p.toFinset ⊆ Finset.range n := by
    intro v hv
    rw [List.mem_toFinset] at hv
    exact Finset.mem_range.mpr (hb v hv)
  have h2 := Finset.card_le_card h1
  rw [List.toFinset_card_of_nodup hnd, Finset.card_range] at h2
  exact h2

theorem currentVertex_eq_getLast (nd : Node) (h : nd.path ≠ []) :
    currentVertex nd = nd.path.getLast h := by
  unfold currentVertex
  have hlen : nd.path.length - 1 < nd.path.length := by
    have := List.length_pos.mpr h
    omega
  rw [List.getD_eq_getElem?_getD, List.getElem?_eq_getElem hlen,
    List.getLast_eq_getElem]
  rfl

theorem mem_of_ne_last (nd : Node) (h : nd.path ≠ []) (e : ℕ)
    (hd : e ∉ nd.path.dropLast) (hl : currentVertex nd ≠ e) : e ∉ nd.path := by
  intro hmem
  have hsplit := List.dropLast_append_getLast h
  rw [← hsplit] at hmem
  rcases List.mem_append.mp hmem with h1 | h1
  · exact hd h1
  · rw [List.mem_singleton] at h1
    exact hl (by rw [currentVertex_eq_getLast nd h, ← h1])

theorem getD_mem_dropLast (p : List ℕ) (i d : ℕ) (h : i < p.length - 1) :
    p.getD i d ∈ p.dropLast := by
  have h1 : i < p.dropLast.length := by rw [List.length_dropLast]; omega
  have h2 : i < p.length := by omega
  rw [List.getD_eq_getElem?_getD, List.getElem?_eq_getElem h2]
  show p[i] ∈ p.dropLast
  rw [← List.getElem_dropLast p i h1]
  exact List.getElem_mem h1

/-! ### Invariant: an unreachable end vertex is never entered -/

/-- Invariant of the main loop when the end vertex `e` has no incoming
finite-cost edge: no node in the open list ends at `e`, and the best cost is
still the sentinel. -/
def unreachableInv (m : List (List ℚ)) (n e : ℕ) (st : AStarState) : Prop :=
  st.costs = costFn m ∧ st.n_cities = n ∧ st.end_idx = e ∧
  st.best_cost = DBLMAX ∧
  ∀ nd ∈ st.open_list, nd.path ≠ [] ∧ (∀ v ∈ nd.path, v < n) ∧
    currentVertex nd ≠ e

theorem unreachableInv_step (m : List (List ℚ)) (n e : ℕ)
    (he : ∀ i, i < n → costFn m i e = DBLMAX) (st : AStarState)
    (hinv : unreachableInv m n e st) : unreachableInv m n e (searchStep st) := by
  obtain ⟨hc, hn, hee, hb, hq⟩ := hinv
  unfold searchStep
  cases hpop : pop_node st.open_list with
  | none => exact ⟨hc, hn, hee, hb, hq⟩
  | some pr =>
    obtain ⟨cur, q⟩ := pr
    obtain ⟨hcur_mem, hsub⟩ := pop_node_mem hpop
    obtain ⟨hcne, hcb, hcv⟩ := hq cur hcur_mem
    have hgoal : ¬ is_goal cur { st with open_list := q } := by
      unfold is_goal
      show ¬ currentVertex cur = st.end_idx
      rw [hee]
      exact hcv
    obtain ⟨hcf, hnf, hef, hsf⟩ := expand_node_fields { st with open_list := q } cur
    refine ⟨by rw [hcf]; exact hc, by rw [hnf]; exact hn, by rw [hef]; exact hee,
      ?_, ?_⟩
    · rw [(expand_node_nongoal_best _ _ hgoal).1]
      exact hb
    · intro nd hnd
      rcases mem_expand_open hgoal hnd with h1 | ⟨next, hnlt, hnp, hcost, hflt, rfl⟩
      · exact hq nd (hsub nd h1)
      · have hnext_n : next < n := by rw [← hn]; exact hnlt
        refine ⟨by rw [mkChild_path]; simp, ?_, ?_⟩
        · rw [mkChild_path]
          intro v hv
          rcases List.mem_append.mp hv with hv | hv
          · exact hcb v hv
          · rw [List.mem_singleton] at hv
            subst hv
            exact hnext_n
        · rw [currentVertex_concat _ _ _ (mkChild_path _ _ _)]
          intro hcontra
          apply hcost
          have hcv_lt : currentVertex cur < n :=
            hcb _ (currentVertex_mem cur hcne)
          show st.costs (currentVertex cur) next = DBLMAX
          rw [hcontra, hc]
          exact he _ hcv_lt

/-! ### Invariant: the end vertex occurs only as a path's last element -/

/-- Invariant of the main loop: every open node's path is a duplicate-free
list of vertices below `n` in which the end vertex `e` never occurs before
the last position, and the recorded best path (when set) ends at `e` with no
earlier occurrence of `e`. -/
def onlyEndLastInv (n e : ℕ) (st : AStarState) : Prop :=
  st.n_cities = n ∧ st.end_idx = e ∧
  (∀ nd ∈ st.open_list, nd.path ≠ [] ∧ nd.path.Nodup ∧
    (∀ v ∈ nd.path, v < n) ∧ e ∉ nd.path.dropLast) ∧
  ((st.best_path = [] ∧ st.best_cost = DBLMAX) ∨
    (st.best_path ≠ [] ∧ st.best_path.length ≤ n ∧
      st.best_path.getD (st.best_path.length - 1) n = e ∧
      ∀ i, i < st.best_path.length - 1 → st.best_path.getD i n ≠ e))

theorem onlyEndLastInv_step (n e : ℕ) (st : AStarState)
    (hinv : onlyEndLastInv n e st) : onlyEndLastInv n e (searchStep st) := by
  obtain ⟨hn, hee, hq, hbest⟩ := hinv
  unfold searchStep
  cases hpop : pop_node st.open_list with
  | none => exact ⟨hn, hee, hq, hbest⟩
  | some pr =>
    obtain ⟨cur, q⟩ := pr
    obtain ⟨hcur_mem, hsub⟩ := pop_node_mem hpop
    obtain ⟨hcne, hcnd, hcb, hcd⟩ := hq cur hcur_mem
    obtain ⟨hcf, hnf, hef, hsf⟩ := expand_node_fields { st with open_list := q } cur
    by_cases hgoal : is_goal cur { st with open_list := q }
    · refine ⟨by rw [hnf]; exact hn, by rw [hef]; exact hee, ?_, ?_⟩
      · intro nd hnd
        rw [expand_node_goal_open _ _ hgoal] at hnd
        exact hq nd (hsub nd hnd)
      · have hcv : currentVertex cur = e := by
          have hg := hgoal
          unfold is_goal at hg
          rw [show ({ st with open_list := q } : AStarState).end_idx = st.end_idx
            from rfl, hee] at hg
          exact hg
        by_cases hlt : cur.g_cost < ({ st with open_list := q } : AStarState).best_cost
        · obtain ⟨hbc, hbp⟩ := expand_node_goal_best _ _ hgoal hlt
          right
          have hlen : cur.path.length - 1 < cur.path.length := by
            have := List.length_pos.mpr hcne
            omega
          have hpne : (expand_node { st with open_list := q } cur).best_path ≠ [] := by
            rw [hbp]
            exact hcne
          have hple : (expand_node { st with open_list := q } cur).best_path.length ≤ n := by
            rw [hbp]
            exact nodup_bounded_length_le _ n hcnd hcb
          refine ⟨hpne, hple, ?_, ?_⟩
          · rw [hbp, getD_eq_getD _ _ _ 0 hlen]
            exact hcv
          · rw [hbp]
            intro i hi hcontra
            apply hcd
            rw [← hcontra]
            exact getD_mem_dropLast _ _ _ hi
        · obtain ⟨hbc, hbp⟩ := expand_node_goal_nobest _ _ hgoal hlt
          rw [hbc, hbp]
          exact hbest
    · obtain ⟨hbc, hbp⟩ := expand_node_nongoal_best _ _ hgoal
      refine ⟨by rw [hnf]; exact hn, by rw [hef]; exact hee, ?_,
        by rw [hbc, hbp]; exact hbest⟩
      intro nd hnd
      rcases mem_expand_open hgoal hnd with h1 | ⟨next, hnlt, hnp, hcost, hflt, rfl⟩
      · exact hq nd (hsub nd h1)
      · have hnext_n : next < n := by rw [← hn]; exact hnlt
        refine ⟨by rw [mkChild_path]; simp, ?_, ?_, ?_⟩
        · rw [mkChild_path, List.nodup_append]
          refine ⟨hcnd, List.nodup_singleton _, ?_⟩
          intro a ha hb
          rw [List.mem_singleton] at hb
          subst hb
          exact hnp ha
        · rw [mkChild_path]
          intro v hv
          rcases List.mem_append.mp hv with hv | hv
          · exact hcb v hv
          · rw [List.mem_singleton] at hv
            subst hv
            exact hnext_n
        · rw [mkChild_path, List.dropLast_concat]
          apply mem_of_ne_last cur hcne e hcd
          intro hcontra
          apply hgoal
          unfold is_goal
          show currentVertex cur = st.end_idx
          rw [hee]
          exact hcontra

theorem initState_best (m : List (List ℚ)) (n s e : ℕ) :
    (initState m n s e).best_cost = DBLMAX := rfl

theorem start_node_currentVertex (m : List (List ℚ)) (n s e : ℕ) :
    currentVertex (start_node m n s e) = s := rfl

/-! ### Minimum characterization of the heuristic fallback loop -/

theorem foldl_min_spec (f : ℕ → ℚ) :
    ∀ (L : List ℕ) (a : ℚ),
      (L.foldl (fun acc i => if f i < acc then f i else acc) a ≤ a) ∧
      (∀ x ∈ L, L.foldl (fun acc i => if f i < acc then f i else acc) a ≤ f x) ∧
      (L.foldl (fun acc i => if f i < acc then f i else acc) a = a ∨
        ∃ x ∈ L, L.foldl (fun acc i => if f i < acc then f i else acc) a = f x) := by
  intro L
  induction L with
  | nil =>
    intro a
    exact ⟨le_rfl, by simp, Or.inl rfl⟩
  | cons x L ih =>
    intro a
    obtain ⟨ih1, ih2, ih3⟩ := ih (if f x < a then f x else a)
    simp only [List.foldl_cons]
    refine ⟨?_, ?_, ?_⟩
    · refine le_trans ih1 ?_
      by_cases hx : f x < a
      · rw [if_pos hx]
        exact le_of_lt hx
      · rw [if_neg hx]
    · intro y hy
      rcases List.mem_cons.mp hy with rfl | hy
      · refine le_trans ih1 ?_
        by_cases hx : f y < a
        · rw [if_pos hx]
        · rw [if_neg hx]
          exact le_of_not_lt hx
      · exact ih2 y hy
    · rcases ih3 with h | ⟨y, hy, h⟩
      · by_cases hx : f x < a
        · exact Or.inr ⟨x, List.mem_cons_self _ _, h.trans (if_pos hx)⟩
        · exact Or.inl (h.trans (if_neg hx))
      · exact Or.inr ⟨y, List.mem_cons_of_mem _ hy, h⟩

/-- The zeta-reduced recursion equation of `calculate_heuristic`. -/
theorem calculate_heuristic_eq (st : AStarState) (nd : Node) :
    calculate_heuristic st nd =
      if st.costs (currentVertex nd) st.end_idx = DBLMAX then
        (List.range st.n_cities).foldl
          (fun acc i => if st.costs (currentVertex nd) i < acc then
            st.costs (currentVertex nd) i else acc) DBLMAX
      else st.costs (currentVertex nd) st.end_idx := rfl

/-! ### The claims -/

/-- C1 (code bug witness): the claim "every node's `f` equals `g + h` with
`h` the heuristic computed at creation" fails on the code.  `expand_node`
calls `create_node` with `h = 0` and then overwrites `h_cost` with the
heuristic without recomputing `f_cost` (astar.c lines 158-159), so after one
step of the search on the spec's 4-vertex example the open list contains the
node for path `[0, 1]` with `g = 1`, `h = 5`, but `f = 1 ≠ g + h = 6`. -/
theorem astar_c1_f_neq_g_plus_h :
    ∃ nd ∈ (searchStep (initState m4 4 0 3)).open_list,
      nd.path = [0, 1] ∧ nd.g_cost = 1 ∧ nd.h_cost = 5 ∧ nd.f_cost = 1 ∧
      nd.f_cost ≠ nd.g_cost + nd.h_cost := by decide

/-- C2: on the spec's 4-vertex cost matrix with start vertex 0 and end
vertex 3, the search returns the path `[0, 1, 2, 3]` with cost 3. -/
theorem astar_c2_concrete_scenario : solve_astar m4 4 0 3 = ([0, 1, 2, 3], 3) := by
  decide

/-- A 3×3 cost matrix used to exhibit the missing input validation. -/
def m3 : List (List ℚ) := [[0, 1, 7], [1, 0, 5], [7, 5, 0]]

/-- C3 (code bug witness): the claim "malformed input is rejected as a
structured InvalidInput error before any allocation or search work" fails on
the code, which performs no validation at all (astar.c lines 174-213 go
straight from argument parsing to allocation and the search loop).  Invoked
with a 3×3 matrix but a declared vertex count of 2, the search silently uses
the top-left 2×2 submatrix, runs to completion and returns a normal result
instead of an error. -/
theorem astar_c3_no_input_validation : solve_astar m3 2 0 1 = ([0, 1], 1) := by
  decide

/-- The cost matrix of the C4 counterexample: no direct edge 0 → 2, the only
finite outgoing edge from 0 to another vertex costs 5, and the diagonal
self-entry costs 0. -/
def mc4 : List (List ℚ) := [[0, 5, DBLMAX], [5, 0, DBLMAX], [DBLMAX, DBLMAX, 0]]

/-- Modelled from the spec's words (§4.2) for comparison with the code:
"Otherwise returns the minimum-cost outgoing edge from the current vertex to
any *other* vertex" — the fallback minimum excluding the current vertex. -/
def heuristicSpec (state : AStarState) (node : Node) : ℚ :=
  let current := currentVertex node
  let h := state.costs current state.end_idx
  if h = DBLMAX then
    ((List.range state.n_cities).filter (fun i => decide (i ≠ current))).foldl
      (fun acc i => if state.costs current i < acc then state.costs current i else acc)
      DBLMAX
  else h

/-- C4 counterexample: the fallback loop of `calculate_heuristic`
(astar.c lines 120-124) runs over every vertex including the current one, so
with a zero diagonal it returns 0, not the minimum (5) over the *other*
vertices that the claim describes. -/
theorem astar_c4_counterexample :
    calculate_heuristic (initStateBase mc4 3 0 2) (create_node [0] 0 0) = 0 ∧
    heuristicSpec (initStateBase mc4 3 0 2) (create_node [0] 0 0) = 5 ∧
    calculate_heuristic (initStateBase mc4 3 0 2) (create_node [0] 0 0) ≠
      heuristicSpec (initStateBase mc4 3 0 2) (create_node [0] 0 0) := by decide

/-- C4 (amended): the heuristic equals the direct edge cost to the end
vertex when that edge exists; otherwise it is the minimum of the current
vertex's row over all vertices `i < n_cities` — the current vertex included
— capped at the sentinel (the sentinel itself when the row has no smaller
entry). -/
theorem astar_c4_amended (st : AStarState) (nd : Node) :
    (st.costs (currentVertex nd) st.end_idx ≠ DBLMAX →
      calculate_heuristic st nd = st.costs (currentVertex nd) st.end_idx) ∧
    (st.costs (currentVertex nd) st.end_idx = DBLMAX →
      calculate_heuristic st nd ≤ DBLMAX ∧
      (∀ i, i < st.n_cities →
        calculate_heuristic st nd ≤ st.costs (currentVertex nd) i) ∧
      (calculate_heuristic st nd = DBLMAX ∨
        ∃ i, i < st.n_cities ∧
          calculate_heuristic st nd = st.costs (currentVertex nd) i)) := by
  constructor
  · intro hne
    rw [calculate_heuristic_eq, if_neg hne]
  · intro heq
    rw [calculate_heuristic_eq, if_pos heq]
    obtain ⟨h1, h2, h3⟩ := foldl_min_spec (fun i => st.costs (currentVertex nd) i)
      (List.range st.n_cities) DBLMAX
    refine ⟨h1, fun i hi => h2 i (List.mem_range.mpr hi), ?_⟩
    rcases h3 with h | ⟨x, hx, h⟩
    · exact Or.inl h
    · exact Or.inr ⟨x, List.mem_range.mp hx, h⟩

/-- C4 witness: the amended theorem applied at the concrete `mc4` state. -/
theorem astar_c4_witness :
    calculate_heuristic (initStateBase mc4 3 0 2) (create_node [0] 0 0) ≤ DBLMAX ∧
    (∀ i, i < (initStateBase mc4 3 0 2).n_cities →
      calculate_heuristic (initStateBase mc4 3 0 2) (create_node [0] 0 0) ≤
        (initStateBase mc4 3 0 2).costs
          (currentVertex (create_node [0] 0 0)) i) ∧
    (calculate_heuristic (initStateBase mc4 3 0 2) (create_node [0] 0 0) = DBLMAX ∨
      ∃ i, i < (initStateBase mc4 3 0 2).n_cities ∧
        calculate_heuristic (initStateBase mc4 3 0 2) (create_node [0] 0 0) =
          (initStateBase mc4 3 0 2).costs
            (currentVertex (create_node [0] 0 0)) i) :=
  (astar_c4_amended (initStateBase mc4 3 0 2) (create_node [0] 0 0)).2 (by decide)

/-- C5: after any sequence of push and pop operations on the priority queue,
starting from the freshly created (empty) queue, every non-root element of
the backing heap array has an `f_cost` at least its parent's. -/
theorem astar_c5_heap_invariant (ops : List QueueOp) :
    heapInv (applyOps create_priority_queue ops) :=
  heapInv_applyOps ops create_priority_queue heapInv_empty

/-- C6: during expansion of a non-goal node the open list receives exactly
the candidate children whose `f_cost` is strictly below the current
`best_cost`, in candidate order; every candidate with `f_cost ≥ best_cost`
is discarded and never enters the open list. -/
theorem astar_c6_prune_push (st : AStarState) (nd : Node)
    (h : ¬ is_goal nd st) :
    (expand_node st nd).open_list =
      ((candidates st nd).filter
        (fun c => decide (c.f_cost < st.best_cost))).foldl push_node
        st.open_list :=
  expand_open_list_eq st nd h

/-- C6 witness: the expansion of the start node of the spec's 4-vertex
example. -/
theorem astar_c6_witness :
    ¬ is_goal (create_node [0] 0 0) (initState m4 4 0 3) ∧
    (expand_node (initState m4 4 0 3) (create_node [0] 0 0)).open_list =
      ((candidates (initState m4 4 0 3) (create_node [0] 0 0)).filter
        (fun c => decide (c.f_cost < (initState m4 4 0 3).best_cost))).foldl
        push_node (initState m4 4 0 3).open_list :=
  ⟨by decide, astar_c6_prune_push _ _ (by decide)⟩

/-- C7: `best_cost` starts at the infinite "no solution" sentinel, each main
loop step leaves it unchanged or strictly decreases it, and it is
non-increasing over any number of loop iterations. -/
theorem astar_c7_monotonic_bound :
    (∀ (m : List (List ℚ)) (n s e : ℕ), (initState m n s e).best_cost = DBLMAX) ∧
    (∀ st : AStarState, (searchStep st).best_cost = st.best_cost ∨
      (searchStep st).best_cost < st.best_cost) ∧
    (∀ (fuel : ℕ) (st : AStarState),
      (searchLoop fuel st).best_cost ≤ st.best_cost) :=
  ⟨fun m n s e => initState_best m n s e, searchStep_best_cases, searchLoop_best_le⟩

/-- C8: if the end vertex has no incoming finite-cost edge from any vertex
and the start vertex differs from the end vertex, the search returns the
explicit "no path found" result: an empty path with the infinite cost. -/
theorem astar_c8_unreachable_end (m : List (List ℚ)) (n s e : ℕ)
    (he : ∀ i, i < n → costFn m i e = DBLMAX) (hse : s ≠ e) (hs : s < n) :
    solve_astar m n s e = ([], DBLMAX) := by
  have hinv : unreachableInv m n e (searchLoop MAX_ITERATIONS (initState m n s e)) := by
    apply searchLoop_inv _ (unreachableInv_step m n e he)
    refine ⟨rfl, rfl, rfl, rfl, ?_⟩
    intro nd hnd
    rw [initState_open_list, List.mem_singleton] at hnd
    subst hnd
    refine ⟨by rw [start_node_path]; simp, ?_, ?_⟩
    · rw [start_node_path]
      intro v hv
      rw [List.mem_singleton] at hv
      subst hv
      exact hs
    · rw [start_node_currentVertex]
      exact hse
  obtain ⟨hc, hn, hee, hb, hq⟩ := hinv
  show extract_result (searchLoop MAX_ITERATIONS (initState m n s e)) n e = ([], DBLMAX)
  unfold extract_result
  rw [hb, if_neg (lt_irrefl DBLMAX)]

/-- The 2-vertex matrix of the C8 witness: vertex 1 has no incoming
finite-cost edge. -/
def mW : List (List ℚ) := [[0, DBLMAX], [DBLMAX, DBLMAX]]

/-- C8 witness: the theorem applied to the concrete 2-vertex matrix. -/
theorem astar_c8_witness :
    (∀ i, i < 2 → costFn mW i 1 = DBLMAX) ∧ (0 : ℕ) ≠ 1 ∧ (0 : ℕ) < 2 ∧
    solve_astar mW 2 0 1 = ([], DBLMAX) :=
  ⟨by decide, by decide, by decide,
    astar_c8_unreachable_end mW 2 0 1 (by decide) (by decide) (by decide)⟩

/-- C9: for a valid input with start vertex equal to end vertex, the search
returns the path `[start]` with cost 0; the single expansion hits the goal
test immediately and generates no child nodes (the open list is empty after
the first step). -/
theorem astar_c9_single_vertex (m : List (List ℚ)) (n s e : ℕ)
    (hse : s = e) (hs : s < n) :
    solve_astar m n s e = ([s], 0) ∧
    (searchStep (initState m n s e)).open_list = [] := by
  subst hse
  have hstep : searchStep (initState m n s s) =
      expand_node { initState m n s s with open_list := [] } (start_node m n s s) := by
    unfold searchStep
    rw [initState_open_list, pop_node_singleton]
  have hg : is_goal (start_node m n s s)
      { initState m n s s with open_list := [] } := by
    unfold is_goal
    rw [start_node_currentVertex]
    rfl
  have hlt : (start_node m n s s).g_cost <
      ({ initState m n s s with open_list := [] } : AStarState).best_cost := by
    rw [start_node_g_cost]
    show (0 : ℚ) < DBLMAX
    decide
  obtain ⟨hbc, hbp⟩ := expand_node_goal_best _ _ hg hlt
  have hopen := expand_node_goal_open _ _ hg
  have hso : (searchStep (initState m n s s)).open_list = [] := by
    rw [hstep, hopen]
  refine ⟨?_, hso⟩
  show extract_result (searchLoop MAX_ITERATIONS (initState m n s s)) n s = ([s], 0)
  have hloop : searchLoop MAX_ITERATIONS (initState m n s s) =
      searchStep (initState m n s s) := by
    show searchLoop (149999 + 1) (initState m n s s) = _
    unfold searchLoop
    rw [if_neg (show ¬(initState m n s s).open_list = [] by
      rw [initState_open_list]; simp)]
    exact searchLoop_of_empty hso 149999
  rw [hloop, hstep]
  unfold extract_result
  rw [hbc, hbp, start_node_g_cost, start_node_path]
  rw [if_pos (show (0 : ℚ) < DBLMAX by decide)]
  have hscan : scanLen [s] n s = 1 := by
    have h1 : ([s] : List ℕ) ≠ [] := by simp
    have h2 : ([s] : List ℕ).length ≤ n := by simp; omega
    have h3 : ([s] : List ℕ).getD (([s] : List ℕ).length - 1) n = s := by simp
    have h4 : ∀ i, i < ([s] : List ℕ).length - 1 → ([s] : List ℕ).getD i n ≠ s := by
      intro i hi
      exact absurd hi (by simp)
    exact scanLen_eq_length [s] n s h1 h2 h3 h4
  rw [hscan]
  rfl

/-- C9 witness: the theorem applied to a concrete 1-vertex instance. -/
theorem astar_c9_witness :
    (0 : ℕ) = 0 ∧ (0 : ℕ) < 1 ∧
    (solve_astar [[0]] 1 0 0 = ([0], 0) ∧
      (searchStep (initState [[0]] 1 0 0)).open_list = []) :=
  ⟨rfl, by decide, astar_c9_single_vertex [[0]] 1 0 0 rfl (by decide)⟩

/-- C10: from any valid start, after any number of loop iterations the end
vertex never occurs before the last position of an open node's path, and
whenever the best path has been recorded (`best_cost` moved off the
sentinel), the result-extraction scan for the first occurrence of the end
vertex recovers exactly the recorded best path at its full length. -/
theorem astar_c10_end_only_last (m : List (List ℚ)) (n s e fuel : ℕ)
    (hs : s < n) :
    (∀ nd ∈ (searchLoop fuel (initState m n s e)).open_list,
      e ∉ nd.path.dropLast) ∧
    ((searchLoop fuel (initState m n s e)).best_cost ≠ DBLMAX →
      scanLen (searchLoop fuel (initState m n s e)).best_path n e =
        (searchLoop fuel (initState m n s e)).best_path.length ∧
      (searchLoop fuel (initState m n s e)).best_path.take
          (scanLen (searchLoop fuel (initState m n s e)).best_path n e) =
        (searchLoop fuel (initState m n s e)).best_path) := by
  have hinv : onlyEndLastInv n e (searchLoop fuel (initState m n s e)) := by
    apply searchLoop_inv _ (onlyEndLastInv_step n e)
    refine ⟨rfl, rfl, ?_, Or.inl ⟨rfl, rfl⟩⟩
    intro nd hnd
    rw [initState_open_list, List.mem_singleton] at hnd
    subst hnd
    rw [start_node_path]
    refine ⟨by simp, by simp, ?_, by simp⟩
    intro v hv
    rw [List.mem_singleton] at hv
    subst hv
    exact hs
  obtain ⟨hn, hee, hq, hbest⟩ := hinv
  constructor
  · intro nd hnd
    exact (hq nd hnd).2.2.2
  · intro hne
    rcases hbest with ⟨hbp, hbc⟩ | ⟨h1, h2, h3, h4⟩
    · exact absurd hbc hne
    · have hscan := scanLen_eq_length _ n e h1 h2 h3 h4
      refine ⟨hscan, ?_⟩
      rw [hscan]
      exact List.take_length _

/-- C10 witness: the theorem applied to the spec's 4-vertex instance at the
full iteration budget. -/
theorem astar_c10_witness :
    (∀ nd ∈ (searchLoop 150000 (initState m4 4 0 3)).open_list,
      3 ∉ nd.path.dropLast) ∧
    ((searchLoop 150000 (initState m4 4 0 3)).best_cost ≠ DBLMAX →
      scanLen (searchLoop 150000 (initState m4 4 0 3)).best_path 4 3 =
        (searchLoop 150000 (initState m4 4 0 3)).best_path.length ∧
      (searchLoop 150000 (initState m4 4 0 3)).best_path.take
          (scanLen (searchLoop 150000 (initState m4 4 0 3)).best_path 4 3) =
        (searchLoop 150000 (initState m4 4 0 3)).best_path) :=
  astar_c10_end_only_last m4 4 0 3 150000 (by decide)

end Astar
